import Mathlib

/-! Verification of the `exp` package (boolean expression trees)

The Go package defines two interfaces, `Params` (a string lookup) and `Exp` (a node
that evaluates itself against a `Params`), a map-backed `Params` called `Map`, and the
three combinators `And`, `Or` and `Not`.

Embedding.  An `Exp` value is an interface value: it is `nil`, one of the three structs of
the package (`expAnd`, `expOr`, `expNot`), or a user-defined implementation.  A user-defined
`Eval` is arbitrary Go code, so it is modelled as a function that may read and change a
state `σ` owned by the caller (this is how a leaf records that it has been evaluated) and
that may fail (`none`, a Go run-time panic).  Calling `Eval` on the `nil` interface value
panics.  `Eval` is therefore a state-passing function returning `Option Bool × σ`.
-/

namespace exp

/-- The interface `Params`: one method, `Get(string) string`, a lookup without effect
that answers every key. -/
structure Params where
  /-- The method `Get`. -/
  Get : String → String

/-- The type `Map`, a Go `map[string]string`, as a list of key/value entries.  A Go map
holds at most one entry for a key; `Map.WF` states it. -/
abbrev Map : Type := List (String × String)

/-- The keys of a map are pairwise distinct. -/
abbrev Map.WF (m : Map) : Prop := (List.map Prod.fst m).Nodup

/-- The Go index expression `m[key]` in its one-result form: the stored value, or the zero
value of the element type (the empty string) when the key is absent. -/
def Map.index (m : Map) (key : String) : String :=
  match List.lookup key m with
  | some v => v
  | none => ""

/-- The method `func (m Map) Get(key string) string { return m[key] }`. -/
def Map.Get (m : Map) (key : String) : String := Map.index m key

/-- A `Map` used as a `Params`. -/
def Map.toParams (m : Map) : Params := ⟨m.Get⟩

/-- The interface `Exp`.  `nil` is the nil interface value, `custom` a user-defined
implementation given by its `Eval`, and `expAnd`, `expOr`, `expNot` are the three structs
of the package with their fields. -/
inductive Exp (σ : Type) where
  | nil : Exp σ
  | custom (Eval : Params → σ → Option Bool × σ) : Exp σ
  | expAnd (elems : List (Exp σ)) : Exp σ
  | expOr (elems : List (Exp σ)) : Exp σ
  | expNot (elem : Exp σ) : Exp σ

mutual
/-- The method `Eval`, dispatched on the dynamic type of the interface value.
`expNot.Eval` is `return !n.elem.Eval(p)`; a panic of the child propagates. -/
def Exp.Eval {σ : Type} : Exp σ → Params → σ → Option Bool × σ
  | .nil, _, s => (none, s)
  | .custom f, p, s => f p s
  | .expAnd elems, p, s => expAnd.Eval elems p s
  | .expOr elems, p, s => expOr.Eval elems p s
  | .expNot elem, p, s =>
    match Exp.Eval elem p s with
    | (some b, s1) => (some (!b), s1)
    | (none, s1) => (none, s1)
/-- The body of `expAnd.Eval`: the loop `for _, elem := range a.elems` returning `false` at
the first element whose `Eval` is false, and `true` after the loop. -/
def expAnd.Eval {σ : Type} : List (Exp σ) → Params → σ → Option Bool × σ
  | [], _, s => (some true, s)
  | elem :: rest, p, s =>
    match Exp.Eval elem p s with
    | (some false, s1) => (some false, s1)
    | (some true, s1) => expAnd.Eval rest p s1
    | (none, s1) => (none, s1)
/-- The body of `expOr.Eval`: the loop `for _, elem := range o.elems` returning `true` at
the first element whose `Eval` is true, and `false` after the loop. -/
def expOr.Eval {σ : Type} : List (Exp σ) → Params → σ → Option Bool × σ
  | [], _, s => (some false, s)
  | elem :: rest, p, s =>
    match Exp.Eval elem p s with
    | (some true, s1) => (some true, s1)
    | (some false, s1) => expOr.Eval rest p s1
    | (none, s1) => (none, s1)
end

/-- The constructor `func And(t ...Exp) Exp { return expAnd{t} }`. -/
def And {σ : Type} (t : List (Exp σ)) : Exp σ := .expAnd t

/-- The constructor `func Or(t ...Exp) Exp { return expOr{t} }`. -/
def Or {σ : Type} (t : List (Exp σ)) : Exp σ := .expOr t

/-- The constructor `func Not(t Exp) Exp { return expNot{t} }`. -/
def Not {σ : Type} (t : Exp σ) : Exp σ := .expNot t

/-! ## User-defined leaves used in the statements -/

/-- A user-defined leaf without effect: it returns `f p` and leaves the state alone. -/
def Leaf {σ : Type} (f : Params → Bool) : Exp σ := .custom fun p s => (some (f p), s)

/-- A user-defined leaf that records its evaluation: it appends `tag` to the log and
returns `f p`. -/
def Recording {τ : Type} (tag : τ) (f : Params → Bool) : Exp (List τ) :=
  .custom fun p log => (some (f p), log ++ [tag])

/-- A user-defined leaf that records what it is given: it appends `obs p`, an observation
of the parameter source it receives, to the log and returns `f p`. -/
def Observing {τ : Type} (obs : Params → τ) (f : Params → Bool) : Exp (List τ) :=
  .custom fun p log => (some (f p), log ++ [obs p])

/-- Modelled from the spec: the leaf `LeafEquals(k, v)` of the end-to-end scenario is not
part of the package; its `Eval(p)` is `p.Get(k) == v`, without effect. -/
def LeafEquals {σ : Type} (k v : String) : Exp σ := Leaf fun p => p.Get k == v

/-! ## Well-formed trees -/

mutual
/-- A tree without nil children whose user-defined leaves return a boolean (they do not
panic), whatever parameter source and state they are given. -/
def Exp.WellFormed {σ : Type} : Exp σ → Prop
  | .nil => False
  | .custom f => ∀ p s, ∃ b s1, f p s = (some b, s1)
  | .expAnd elems => WellFormedList elems
  | .expOr elems => WellFormedList elems
  | .expNot elem => Exp.WellFormed elem
/-- Every node of the list is well-formed. -/
def WellFormedList {σ : Type} : List (Exp σ) → Prop
  | [] => True
  | elem :: rest => Exp.WellFormed elem ∧ WellFormedList rest
end

mutual
/-- A tree built from `And`, `Or` and `Not` over user-defined leaves that keep no state and
observe the parameter source only through `Get`: the result of such a leaf is a function
`g` of the lookup alone, and it returns the state it was given. -/
def Exp.Stateless {σ : Type} : Exp σ → Prop
  | .nil => False
  | .custom f => ∃ g : (String → String) → Bool, ∀ p s, f p s = (some (g p.Get), s)
  | .expAnd elems => StatelessList elems
  | .expOr elems => StatelessList elems
  | .expNot elem => Exp.Stateless elem
/-- Every node of the list is stateless. -/
def StatelessList {σ : Type} : List (Exp σ) → Prop
  | [] => True
  | elem :: rest => Exp.Stateless elem ∧ StatelessList rest
end

/-! ## Go map assignment -/

/-- The Go assignment `m[k] = v`: the entry of `k`, if there is one, is replaced. -/
def Map.set (m : Map) (k v : String) : Map := (k, v) :: List.filter (fun e => e.1 != k) m

/-! ## Slices and the variadic call

`And(t ...Exp)` stores its parameter `t` in the struct: `return expAnd{t}`.  A call
`And(s...)` passes the slice `s` unchanged as `t` (no new slice is created), so the struct
and the caller refer to the same backing array; a call `And(c1, .., cn)` passes a slice over
a newly allocated array.  At this level an interface value holds what the Go value holds:
an `expAnd` or `expOr` holds a slice, that is a reference into the memory of backing
arrays, and the elements of an array are again interface values.  The children of a node
are what its slice shows in the current memory, at every depth of the tree.  Memory can
hold a cycle, on which the Go recursion does not return; `Node.Eval` therefore takes a
bound on the depth of the calls and returns `none` when the bound is reached. -/

/-- A Go slice value: the address of its backing array, its offset in it and its length. -/
structure Slice where
  /-- Address of the backing array. -/
  arr : Nat
  /-- Index in the array of the first element of the slice. -/
  off : Nat
  /-- Number of elements. -/
  len : Nat

/-- An interface value of type `Exp` as it is held in memory: the structs `expAnd` and
`expOr` hold the slice `elems`, `expNot` holds the interface value `elem`.  A user-defined
implementation is, as in `Exp`, a function of the parameter source and of the caller's
state; it does not read the memory of slices. -/
inductive Node (σ : Type) where
  | nil : Node σ
  | custom (Eval : Params → σ → Option Bool × σ) : Node σ
  | expAnd (elems : Slice) : Node σ
  | expOr (elems : Slice) : Node σ
  | expNot (elem : Node σ) : Node σ

/-- The memory of backing arrays: the array at address `a` is the `a`-th list. -/
abbrev Heap (σ : Type) : Type := List (List (Node σ))

/-- The slice lies within its backing array. -/
def Slice.Valid {σ : Type} (h : Heap σ) (t : Slice) : Prop :=
  t.arr < h.length ∧ t.off + t.len ≤ (h.getD t.arr []).length

/-- The elements of a slice in memory `h`. -/
def Slice.elems {σ : Type} (h : Heap σ) (t : Slice) : List (Node σ) :=
  ((h.getD t.arr []).drop t.off).take t.len

/-- The Go assignment `t[i] = x`; an index out of range panics (`none`). -/
def Slice.assign {σ : Type} (h : Heap σ) (t : Slice) (i : Nat) (x : Node σ) :
    Option (Heap σ) :=
  if i < t.len then some (h.set t.arr ((h.getD t.arr []).set (t.off + i) x)) else none

/-- The loop of `expAnd.Eval` over the elements `elems`, with `ev` the method `Eval` of
the elements: `false` at the first element whose `Eval` is false, `true` after the loop.
The outer `none` is a call that does not return. -/
def andLoop {σ : Type} (ev : Node σ → Params → σ → Option (Option Bool × σ)) :
    List (Node σ) → Params → σ → Option (Option Bool × σ)
  | [], _, s => some (some true, s)
  | elem :: rest, p, s =>
    match ev elem p s with
    | some (some false, s1) => some (some false, s1)
    | some (some true, s1) => andLoop ev rest p s1
    | some (none, s1) => some (none, s1)
    | none => none

/-- The loop of `expOr.Eval` over the elements `elems`, with `ev` the method `Eval` of
the elements: `true` at the first element whose `Eval` is true, `false` after the loop. -/
def orLoop {σ : Type} (ev : Node σ → Params → σ → Option (Option Bool × σ)) :
    List (Node σ) → Params → σ → Option (Option Bool × σ)
  | [], _, s => some (some false, s)
  | elem :: rest, p, s =>
    match ev elem p s with
    | some (some true, s1) => some (some true, s1)
    | some (some false, s1) => orLoop ev rest p s1
    | some (none, s1) => some (none, s1)
    | none => none

/-- The method `Eval` in memory `h`, with calls nested at most `depth` deep.  The elements
of `elems` are read from the memory at the time of the call. -/
def Node.Eval {σ : Type} (h : Heap σ) :
    Nat → Node σ → Params → σ → Option (Option Bool × σ)
  | 0, _, _, _ => none
  | _ + 1, .nil, _, s => some (none, s)
  | _ + 1, .custom f, p, s => some (f p s)
  | depth + 1, .expAnd elems, p, s => andLoop (Node.Eval h depth) (elems.elems h) p s
  | depth + 1, .expOr elems, p, s => orLoop (Node.Eval h depth) (elems.elems h) p s
  | depth + 1, .expNot elem, p, s =>
    match Node.Eval h depth elem p s with
    | some (some b, s1) => some (some (!b), s1)
    | some (none, s1) => some (none, s1)
    | none => none

/-- The call `And(s...)`: `return expAnd{t}` with `t` the caller's slice `s` itself. -/
def AndSlice {σ : Type} (s : Slice) : Node σ := .expAnd s

/-- The call `Or(s...)`: `return expOr{t}` with `t` the caller's slice `s` itself. -/
def OrSlice {σ : Type} (s : Slice) : Node σ := .expOr s

/-- The call `And(c1, .., cn)` with individual arguments: the arguments are put in a
newly allocated array, and the struct holds a slice over it. -/
def AndArgs {σ : Type} (h : Heap σ) (cs : List (Node σ)) : Heap σ × Node σ :=
  (h ++ [cs], .expAnd ⟨h.length, 0, cs.length⟩)

/-- The call `Or(c1, .., cn)` with individual arguments. -/
def OrArgs {σ : Type} (h : Heap σ) (cs : List (Node σ)) : Heap σ × Node σ :=
  (h ++ [cs], .expOr ⟨h.length, 0, cs.length⟩)

/-- The children a node holds in memory `h`: the elements its slice shows, or the one
child of a `Not`. -/
def Node.children {σ : Type} (h : Heap σ) : Node σ → List (Node σ)
  | .nil => []
  | .custom _ => []
  | .expAnd elems => elems.elems h
  | .expOr elems => elems.elems h
  | .expNot elem => [elem]

/-- A user-defined leaf without effect, as an interface value in memory. -/
def Node.Leaf {σ : Type} (f : Params → Bool) : Node σ := .custom fun p s => (some (f p), s)

/-- The backing array at address `a` is read when `n` is evaluated in memory `h`: it is the
array of the slice of `n`, or it is reachable from an element of that slice, or from the
child of a `Not`. -/
inductive Reaches {σ : Type} (h : Heap σ) : Node σ → Nat → Prop where
  | andSelf (t : Slice) (a : Nat) : a = t.arr → Reaches h (.expAnd t) a
  | andElem (t : Slice) (c : Node σ) (a : Nat) :
      c ∈ t.elems h → Reaches h c a → Reaches h (.expAnd t) a
  | orSelf (t : Slice) (a : Nat) : a = t.arr → Reaches h (.expOr t) a
  | orElem (t : Slice) (c : Node σ) (a : Nat) :
      c ∈ t.elems h → Reaches h c a → Reaches h (.expOr t) a
  | notElem (e : Node σ) (a : Nat) : Reaches h e a → Reaches h (.expNot e) a

/-- The tree that a node in memory stands for, read off the memory at one moment, if the
node can be unfolded within `depth` levels. -/
def Node.toExp {σ : Type} (h : Heap σ) : Nat → Node σ → Option (Exp σ)
  | 0, _ => none
  | _ + 1, .nil => some .nil
  | _ + 1, .custom f => some (.custom f)
  | depth + 1, .expAnd elems => ((elems.elems h).mapM (Node.toExp h depth)).map .expAnd
  | depth + 1, .expOr elems => ((elems.elems h).mapM (Node.toExp h depth)).map .expOr
  | depth + 1, .expNot elem => (Node.toExp h depth elem).map .expNot

/-! ## Unfolding lemmas -/

theorem Eval_And {σ : Type} (t : List (Exp σ)) (p : Params) (s : σ) :
    (And t).Eval p s = expAnd.Eval t p s := by
  simp [And, Exp.Eval]

theorem Eval_Or {σ : Type} (t : List (Exp σ)) (p : Params) (s : σ) :
    (Or t).Eval p s = expOr.Eval t p s := by
  simp [Or, Exp.Eval]

theorem Eval_Not {σ : Type} (t : Exp σ) (p : Params) (s : σ) :
    (Not t).Eval p s =
      match t.Eval p s with
      | (some b, s1) => (some (!b), s1)
      | (none, s1) => (none, s1) := by
  simp [Not, Exp.Eval]

theorem expAnd_Eval_nil {σ : Type} (p : Params) (s : σ) :
    expAnd.Eval ([] : List (Exp σ)) p s = (some true, s) := by
  simp [expAnd.Eval]

theorem expAnd_Eval_cons {σ : Type} (e : Exp σ) (rest : List (Exp σ)) (p : Params) (s : σ) :
    expAnd.Eval (e :: rest) p s =
      match e.Eval p s with
      | (some false, s1) => (some false, s1)
      | (some true, s1) => expAnd.Eval rest p s1
      | (none, s1) => (none, s1) := by
  simp [expAnd.Eval]

theorem expOr_Eval_nil {σ : Type} (p : Params) (s : σ) :
    expOr.Eval ([] : List (Exp σ)) p s = (some false, s) := by
  simp [expOr.Eval]

theorem expOr_Eval_cons {σ : Type} (e : Exp σ) (rest : List (Exp σ)) (p : Params) (s : σ) :
    expOr.Eval (e :: rest) p s =
      match e.Eval p s with
      | (some true, s1) => (some true, s1)
      | (some false, s1) => expOr.Eval rest p s1
      | (none, s1) => (none, s1) := by
  simp [expOr.Eval]

/-- Conjunction over children that return a boolean and leave the state unchanged. -/
theorem expAnd_Eval_of_pure {σ : Type} (L : List (Exp σ)) (p : Params) (s : σ)
    (v : Exp σ → Bool) (h : ∀ e ∈ L, e.Eval p s = (some (v e), s)) :
    expAnd.Eval L p s = (some (L.all v), s) := by
  induction L with
  | nil => simp [expAnd_Eval_nil]
  | cons e rest ih =>
    have he := h e (List.mem_cons_self e rest)
    have hrest := ih (fun x hx => h x (List.mem_cons_of_mem e hx))
    rw [expAnd_Eval_cons, he]
    cases hv : v e <;> simp [hv, hrest]

/-- Disjunction over children that return a boolean and leave the state unchanged. -/
theorem expOr_Eval_of_pure {σ : Type} (L : List (Exp σ)) (p : Params) (s : σ)
    (v : Exp σ → Bool) (h : ∀ e ∈ L, e.Eval p s = (some (v e), s)) :
    expOr.Eval L p s = (some (L.any v), s) := by
  induction L with
  | nil => simp [expOr_Eval_nil]
  | cons e rest ih =>
    have he := h e (List.mem_cons_self e rest)
    have hrest := ih (fun x hx => h x (List.mem_cons_of_mem e hx))
    rw [expOr_Eval_cons, he]
    cases hv : v e <;> simp [hv, hrest]

/-- De Morgan on the loop of `expAnd.Eval`, for arbitrary children and states. -/
theorem expOr_Eval_map_Not {σ : Type} (L : List (Exp σ)) (p : Params) (s : σ) :
    expOr.Eval (L.map Not) p s = (Not (And L)).Eval p s := by
  induction L generalizing s with
  | nil => simp [Eval_Not, Eval_And, expAnd_Eval_nil, expOr_Eval_nil]
  | cons e rest ih =>
    have hrest := ih
    simp only [Eval_Not, Eval_And] at hrest
    simp only [List.map_cons, expOr_Eval_cons, Eval_Not, Eval_And, expAnd_Eval_cons]
    rcases hes : e.Eval p s with ⟨r, s1⟩
    rcases r with _ | b
    · simp
    · cases b <;> simp [hrest]

/-- De Morgan on the loop of `expOr.Eval`, for arbitrary children and states. -/
theorem expAnd_Eval_map_Not {σ : Type} (L : List (Exp σ)) (p : Params) (s : σ) :
    expAnd.Eval (L.map Not) p s = (Not (Or L)).Eval p s := by
  induction L generalizing s with
  | nil => simp [Eval_Not, Eval_Or, expAnd_Eval_nil, expOr_Eval_nil]
  | cons e rest ih =>
    have hrest := ih
    simp only [Eval_Not, Eval_Or] at hrest
    simp only [List.map_cons, expAnd_Eval_cons, Eval_Not, Eval_Or, expOr_Eval_cons]
    rcases hes : e.Eval p s with ⟨r, s1⟩
    rcases r with _ | b
    · simp
    · cases b <;> simp [hrest]

/-- In a list of entries with distinct keys, looking a stored key up finds its value. -/
theorem lookup_of_mem (m : List (String × String)) (hm : (List.map Prod.fst m).Nodup)
    (k v : String) (h : (k, v) ∈ m) : List.lookup k m = some v := by
  induction m with
  | nil => simp at h
  | cons kv rest ih =>
    obtain ⟨k1, v1⟩ := kv
    simp only [List.map_cons, List.nodup_cons, List.mem_map, Prod.exists, exists_and_right,
      exists_eq_right, not_exists] at hm
    simp only [List.mem_cons, Prod.mk.injEq] at h
    rw [List.lookup_cons]
    rcases h with ⟨rfl, rfl⟩ | h
    · simp
    · have hne : (k == k1) = false := by
        simp only [beq_eq_false_iff_ne, ne_eq]
        rintro rfl
        exact hm.1 v h
      simp only [hne]
      exact ih hm.2 h

/-- Looking up a key that no entry carries finds nothing. -/
theorem lookup_of_not_mem (m : List (String × String)) (k : String)
    (h : ∀ v, (k, v) ∉ m) : List.lookup k m = none := by
  induction m with
  | nil => simp
  | cons kv rest ih =>
    obtain ⟨k1, v1⟩ := kv
    rw [List.lookup_cons]
    have hne : (k == k1) = false := by
      simp only [beq_eq_false_iff_ne, ne_eq]
      rintro rfl
      exact h v1 (List.mem_cons_self _ _)
    simp only [hne]
    exact ih (fun v hv => h v (List.mem_cons_of_mem _ hv))

/-- The loop of `expAnd.Eval` runs through a prefix of children that return true, each
appending its record, and continues with the rest in the resulting state. -/
theorem expAnd_Eval_append_true {τ : Type} (pre rest : List (Exp (List τ))) (p : Params)
    (t : Exp (List τ) → List τ)
    (h : ∀ x ∈ pre, ∀ log, x.Eval p log = (some true, log ++ t x)) (log : List τ) :
    expAnd.Eval (pre ++ rest) p log = expAnd.Eval rest p (log ++ pre.flatMap t) := by
  induction pre generalizing log with
  | nil => simp
  | cons x xs ih =>
    have hx := h x (List.mem_cons_self x xs) log
    have hxs := ih (fun y hy => h y (List.mem_cons_of_mem x hy)) (log ++ t x)
    rw [List.cons_append, expAnd_Eval_cons, hx]
    simp [hxs, List.append_assoc]

/-- The loop of `expOr.Eval` runs through a prefix of children that return false, each
appending its record, and continues with the rest in the resulting state. -/
theorem expOr_Eval_append_false {τ : Type} (pre rest : List (Exp (List τ))) (p : Params)
    (t : Exp (List τ) → List τ)
    (h : ∀ x ∈ pre, ∀ log, x.Eval p log = (some false, log ++ t x)) (log : List τ) :
    expOr.Eval (pre ++ rest) p log = expOr.Eval rest p (log ++ pre.flatMap t) := by
  induction pre generalizing log with
  | nil => simp
  | cons x xs ih =>
    have hx := h x (List.mem_cons_self x xs) log
    have hxs := ih (fun y hy => h y (List.mem_cons_of_mem x hy)) (log ++ t x)
    rw [List.cons_append, expOr_Eval_cons, hx]
    simp [hxs, List.append_assoc]

/-! ## Totality on well-formed trees -/

mutual
/-- A well-formed tree returns a boolean. -/
theorem Eval_of_WellFormed {σ : Type} :
    ∀ (X : Exp σ), X.WellFormed → ∀ p s, ∃ b s1, X.Eval p s = (some b, s1)
  | .nil, h, _, _ => by simp [Exp.WellFormed] at h
  | .custom f, h, p, s => by
    simp only [Exp.WellFormed] at h
    simpa [Exp.Eval] using h p s
  | .expAnd elems, h, p, s => by
    simp only [Exp.WellFormed] at h
    simpa [Exp.Eval] using expAnd_Eval_of_WellFormed elems h p s
  | .expOr elems, h, p, s => by
    simp only [Exp.WellFormed] at h
    simpa [Exp.Eval] using expOr_Eval_of_WellFormed elems h p s
  | .expNot elem, h, p, s => by
    simp only [Exp.WellFormed] at h
    obtain ⟨b, s1, hb⟩ := Eval_of_WellFormed elem h p s
    exact ⟨!b, s1, by simp [Exp.Eval, hb]⟩
/-- The loop of `expAnd.Eval` over well-formed children returns a boolean. -/
theorem expAnd_Eval_of_WellFormed {σ : Type} :
    ∀ (L : List (Exp σ)), WellFormedList L → ∀ p s, ∃ b s1, expAnd.Eval L p s = (some b, s1)
  | [], _, _, s => ⟨true, s, by simp [expAnd.Eval]⟩
  | elem :: rest, h, p, s => by
    simp only [WellFormedList] at h
    obtain ⟨b, s1, hb⟩ := Eval_of_WellFormed elem h.1 p s
    rw [expAnd_Eval_cons, hb]
    cases b
    · exact ⟨false, s1, rfl⟩
    · exact expAnd_Eval_of_WellFormed rest h.2 p s1
/-- The loop of `expOr.Eval` over well-formed children returns a boolean. -/
theorem expOr_Eval_of_WellFormed {σ : Type} :
    ∀ (L : List (Exp σ)), WellFormedList L → ∀ p s, ∃ b s1, expOr.Eval L p s = (some b, s1)
  | [], _, _, s => ⟨false, s, by simp [expOr.Eval]⟩
  | elem :: rest, h, p, s => by
    simp only [WellFormedList] at h
    obtain ⟨b, s1, hb⟩ := Eval_of_WellFormed elem h.1 p s
    rw [expOr_Eval_cons, hb]
    cases b
    · exact expOr_Eval_of_WellFormed rest h.2 p s1
    · exact ⟨true, s1, rfl⟩
end

/-! ## Stateless trees are functions of the lookup -/

mutual
/-- A stateless tree returns a function of the lookup and leaves the state unchanged. -/
theorem Eval_of_Stateless {σ : Type} :
    ∀ (X : Exp σ), X.Stateless →
      ∃ g : (String → String) → Bool, ∀ p s, X.Eval p s = (some (g p.Get), s)
  | .nil, h => by simp [Exp.Stateless] at h
  | .custom f, h => by
    simp only [Exp.Stateless] at h
    obtain ⟨g, hg⟩ := h
    exact ⟨g, fun p s => by simp [Exp.Eval, hg p s]⟩
  | .expAnd elems, h => by
    simp only [Exp.Stateless] at h
    obtain ⟨g, hg⟩ := expAnd_Eval_of_Stateless elems h
    exact ⟨g, fun p s => by simp [Exp.Eval, hg p s]⟩
  | .expOr elems, h => by
    simp only [Exp.Stateless] at h
    obtain ⟨g, hg⟩ := expOr_Eval_of_Stateless elems h
    exact ⟨g, fun p s => by simp [Exp.Eval, hg p s]⟩
  | .expNot elem, h => by
    simp only [Exp.Stateless] at h
    obtain ⟨g, hg⟩ := Eval_of_Stateless elem h
    exact ⟨fun G => !g G, fun p s => by simp [Exp.Eval, hg p s]⟩
/-- The loop of `expAnd.Eval` over stateless children is a function of the lookup. -/
theorem expAnd_Eval_of_Stateless {σ : Type} :
    ∀ (L : List (Exp σ)), StatelessList L →
      ∃ g : (String → String) → Bool, ∀ p s, expAnd.Eval L p s = (some (g p.Get), s)
  | [], _ => ⟨fun _ => true, fun p s => by simp [expAnd.Eval]⟩
  | elem :: rest, h => by
    simp only [StatelessList] at h
    obtain ⟨g1, hg1⟩ := Eval_of_Stateless elem h.1
    obtain ⟨g2, hg2⟩ := expAnd_Eval_of_Stateless rest h.2
    refine ⟨fun G => g1 G && g2 G, fun p s => ?_⟩
    rw [expAnd_Eval_cons, hg1 p s]
    cases hb : g1 p.Get <;> simp [hb, hg2 p s]
/-- The loop of `expOr.Eval` over stateless children is a function of the lookup. -/
theorem expOr_Eval_of_Stateless {σ : Type} :
    ∀ (L : List (Exp σ)), StatelessList L →
      ∃ g : (String → String) → Bool, ∀ p s, expOr.Eval L p s = (some (g p.Get), s)
  | [], _ => ⟨fun _ => false, fun p s => by simp [expOr.Eval]⟩
  | elem :: rest, h => by
    simp only [StatelessList] at h
    obtain ⟨g1, hg1⟩ := Eval_of_Stateless elem h.1
    obtain ⟨g2, hg2⟩ := expOr_Eval_of_Stateless rest h.2
    refine ⟨fun G => g1 G || g2 G, fun p s => ?_⟩
    rw [expOr_Eval_cons, hg1 p s]
    cases hb : g1 p.Get <;> simp [hb, hg2 p s]
end

/-- Assigning the empty string to an absent key does not change any lookup. -/
theorem Map_set_empty_Get (m : Map) (k : String) (hk : ∀ v, (k, v) ∉ m) (key : String) :
    (m.set k "").Get key = m.Get key := by
  have hfilter : List.filter (fun e : String × String => e.1 != k) m = m := by
    rw [List.filter_eq_self]
    intro e he
    simp only [bne_iff_ne, ne_eq]
    rintro rfl
    exact hk e.2 he
  simp only [Map.Get, Map.index, Map.set, hfilter, List.lookup_cons]
  cases hkey : (key == k)
  · simp
  · have hkk : key = k := by simpa using hkey
    subst hkk
    simp [lookup_of_not_mem m key hk]

/-! ## Assignments through a slice -/

/-- Reading an array after the array at address `a` has been replaced. -/
theorem Heap_getD_set {σ : Type} (h : Heap σ) (a b : Nat) (A : List (Node σ)) :
    (h.set a A).getD b [] = if a = b ∧ a < h.length then A else h.getD b [] := by
  simp only [List.getD_eq_getElem?_getD, List.getElem?_set]
  by_cases hab : a = b
  · by_cases hlt : a < h.length
    · subst hab
      simp [hlt]
    · subst hab
      have hnone : h[a]? = none := List.getElem?_eq_none (Nat.le_of_not_lt hlt)
      simp [hlt, hnone]
  · simp [hab]

/-- An assignment through a slice on another backing array is not seen. -/
theorem Slice_elems_assign_other {σ : Type} (h h1 : Heap σ) (t u : Slice) (i : Nat)
    (x : Node σ) (hne : u.arr ≠ t.arr) (ha : u.assign h i x = some h1) :
    t.elems h1 = t.elems h := by
  unfold Slice.assign at ha
  split at ha
  · simp only [Option.some.injEq] at ha
    subst ha
    simp [Slice.elems, Heap_getD_set, hne]
  · simp at ha

/-- An assignment through the slice itself replaces the element at that index. -/
theorem Slice_elems_assign_self {σ : Type} (h h1 : Heap σ) (t : Slice) (i : Nat)
    (x : Node σ) (hv : t.Valid h) (ha : t.assign h i x = some h1) :
    t.elems h1 = (t.elems h).set i x := by
  unfold Slice.assign at ha
  split at ha
  · simp only [Option.some.injEq] at ha
    subst ha
    simp only [Slice.elems, Heap_getD_set, hv.1, and_self, if_true]
    rw [← List.set_drop, List.set_take]
  · simp at ha

/-- No assignment through a slice changes the number of elements another slice shows. -/
theorem Slice_elems_assign_length {σ : Type} (h h1 : Heap σ) (t u : Slice) (i : Nat)
    (x : Node σ) (ha : u.assign h i x = some h1) :
    (t.elems h1).length = (t.elems h).length := by
  unfold Slice.assign at ha
  split at ha
  · simp only [Option.some.injEq] at ha
    subst ha
    simp only [Slice.elems, Heap_getD_set]
    split
    · rename_i hc
      simp [← hc.1]
    · rfl
  · simp at ha

/-- The loop of `expAnd.Eval` depends on the method `Eval` of the elements only. -/
theorem andLoop_congr {σ : Type} (ev1 ev2 : Node σ → Params → σ → Option (Option Bool × σ))
    (cs : List (Node σ)) (hev : ∀ c ∈ cs, ∀ p s, ev1 c p s = ev2 c p s) (p : Params) (s : σ) :
    andLoop ev1 cs p s = andLoop ev2 cs p s := by
  induction cs generalizing s with
  | nil => simp [andLoop]
  | cons c rest ih =>
    have hrest := ih (fun x hx => hev x (List.mem_cons_of_mem c hx))
    simp only [andLoop, hev c (List.mem_cons_self c rest) p s, hrest]

/-- The loop of `expOr.Eval` depends on the method `Eval` of the elements only. -/
theorem orLoop_congr {σ : Type} (ev1 ev2 : Node σ → Params → σ → Option (Option Bool × σ))
    (cs : List (Node σ)) (hev : ∀ c ∈ cs, ∀ p s, ev1 c p s = ev2 c p s) (p : Params) (s : σ) :
    orLoop ev1 cs p s = orLoop ev2 cs p s := by
  induction cs generalizing s with
  | nil => simp [orLoop]
  | cons c rest ih =>
    have hrest := ih (fun x hx => hev x (List.mem_cons_of_mem c hx))
    simp only [orLoop, hev c (List.mem_cons_self c rest) p s, hrest]

/-- An assignment to a backing array that is not read in the evaluation of `n` changes
nothing of that evaluation, at every bound on the depth. -/
theorem Node_Eval_assign_frame {σ : Type} (h h1 : Heap σ) (u : Slice) (i : Nat) (x : Node σ)
    (ha : u.assign h i x = some h1) (depth : Nat) :
    ∀ (n : Node σ), ¬ Reaches h n u.arr → ∀ p s, n.Eval h1 depth p s = n.Eval h depth p s := by
  induction depth with
  | zero => intro n _ p s; simp [Node.Eval]
  | succ d ih =>
    intro n hn p s
    cases n with
    | nil => simp [Node.Eval]
    | custom f => simp [Node.Eval]
    | expAnd t =>
      have hne : u.arr ≠ t.arr := fun he => hn (Reaches.andSelf t u.arr he)
      have hel : t.elems h1 = t.elems h := Slice_elems_assign_other h h1 t u i x hne ha
      simp only [Node.Eval, hel]
      exact andLoop_congr _ _ _
        (fun c hc => ih c (fun hr => hn (Reaches.andElem t c u.arr hc hr))) p s
    | expOr t =>
      have hne : u.arr ≠ t.arr := fun he => hn (Reaches.orSelf t u.arr he)
      have hel : t.elems h1 = t.elems h := Slice_elems_assign_other h h1 t u i x hne ha
      simp only [Node.Eval, hel]
      exact orLoop_congr _ _ _
        (fun c hc => ih c (fun hr => hn (Reaches.orElem t c u.arr hc hr))) p s
    | expNot e =>
      simp only [Node.Eval, ih e (fun hr => hn (Reaches.notElem e u.arr hr)) p s]


/-- The loop of `expAnd.Eval` returns what it returned, when the method `Eval` of the
elements returns what it returned. -/
theorem andLoop_mono {σ : Type} (ev1 ev2 : Node σ → Params → σ → Option (Option Bool × σ))
    (cs : List (Node σ)) (hev : ∀ c ∈ cs, ∀ p s r, ev1 c p s = some r → ev2 c p s = some r)
    (p : Params) (s : σ) (r : Option Bool × σ) (hr : andLoop ev1 cs p s = some r) :
    andLoop ev2 cs p s = some r := by
  induction cs generalizing s with
  | nil => simpa [andLoop] using hr
  | cons c rest ih =>
    have hrest := ih (fun x hx => hev x (List.mem_cons_of_mem c hx))
    have hc := hev c (List.mem_cons_self c rest) p s
    simp only [andLoop] at hr ⊢
    rcases h1 : ev1 c p s with _ | ⟨r1, s1⟩
    · simp [h1] at hr
    · rw [hc _ h1]
      rw [h1] at hr
      rcases r1 with _ | b
      · exact hr
      · cases b
        · exact hr
        · exact hrest s1 hr

/-- The loop of `expOr.Eval` returns what it returned, when the method `Eval` of the
elements returns what it returned. -/
theorem orLoop_mono {σ : Type} (ev1 ev2 : Node σ → Params → σ → Option (Option Bool × σ))
    (cs : List (Node σ)) (hev : ∀ c ∈ cs, ∀ p s r, ev1 c p s = some r → ev2 c p s = some r)
    (p : Params) (s : σ) (r : Option Bool × σ) (hr : orLoop ev1 cs p s = some r) :
    orLoop ev2 cs p s = some r := by
  induction cs generalizing s with
  | nil => simpa [orLoop] using hr
  | cons c rest ih =>
    have hrest := ih (fun x hx => hev x (List.mem_cons_of_mem c hx))
    have hc := hev c (List.mem_cons_self c rest) p s
    simp only [orLoop] at hr ⊢
    rcases h1 : ev1 c p s with _ | ⟨r1, s1⟩
    · simp [h1] at hr
    · rw [hc _ h1]
      rw [h1] at hr
      rcases r1 with _ | b
      · exact hr
      · cases b
        · exact hrest s1 hr
        · exact hr

/-- A call that returns within a bound on the depth returns the same within a larger
bound. -/
theorem Node_Eval_succ {σ : Type} (h : Heap σ) (depth : Nat) :
    ∀ (n : Node σ) (p : Params) (s : σ) (r : Option Bool × σ),
      n.Eval h depth p s = some r → n.Eval h (depth + 1) p s = some r := by
  induction depth with
  | zero => intro n p s r hr; simp [Node.Eval] at hr
  | succ d ih =>
    intro n p s r hr
    cases n with
    | nil => simpa [Node.Eval] using hr
    | custom f => simpa [Node.Eval] using hr
    | expAnd t =>
      simp only [Node.Eval] at hr ⊢
      exact andLoop_mono _ _ _ (fun c _ p s r => ih c p s r) p s r hr
    | expOr t =>
      simp only [Node.Eval] at hr ⊢
      exact orLoop_mono _ _ _ (fun c _ p s r => ih c p s r) p s r hr
    | expNot e =>
      simp only [Node.Eval] at hr ⊢
      rcases h1 : Node.Eval h d e p s with _ | ⟨r1, s1⟩
      · simp [h1] at hr
      · rw [ih e p s _ h1]
        rw [h1] at hr
        exact hr

/-- A call that returns within a bound on the depth returns the same within every larger
bound. -/
theorem Node_Eval_mono {σ : Type} (h : Heap σ) (depth k : Nat) (n : Node σ) (p : Params)
    (s : σ) (r : Option Bool × σ) (hr : n.Eval h depth p s = some r) :
    n.Eval h (depth + k) p s = some r := by
  induction k with
  | zero => exact hr
  | succ k ih => exact Node_Eval_succ h (depth + k) n p s r ih

/-- The loop over elements in memory is the loop of `expAnd.Eval` over the trees they
stand for. -/
theorem andLoop_toExp {σ : Type} (ev : Node σ → Params → σ → Option (Option Bool × σ))
    (un : Node σ → Option (Exp σ)) (cs : List (Node σ))
    (hev : ∀ c ∈ cs, ∀ T, un c = some T → ∀ p s, ev c p s = some (T.Eval p s))
    (Ts : List (Exp σ)) (hTs : cs.mapM un = some Ts) (p : Params) (s : σ) :
    andLoop ev cs p s = some (expAnd.Eval Ts p s) := by
  induction cs generalizing Ts s with
  | nil =>
    simp only [List.mapM_nil, Option.pure_def, Option.some.injEq] at hTs
    subst hTs
    simp [andLoop, expAnd.Eval]
  | cons c rest ih =>
    simp only [List.mapM_cons, Option.pure_def, Option.bind_eq_bind, Option.bind_eq_some] at hTs
    obtain ⟨T, hT, Trest, hTrest, hcons⟩ := hTs
    simp only [Option.some.injEq] at hcons
    subst hcons
    have hc := hev c (List.mem_cons_self c rest) T hT p s
    have hrest := ih (fun x hx => hev x (List.mem_cons_of_mem c hx)) Trest hTrest
    simp only [andLoop, hc, expAnd_Eval_cons]
    rcases hTe : T.Eval p s with ⟨r1, s1⟩
    rcases r1 with _ | b
    · rfl
    · cases b
      · rfl
      · exact hrest s1

/-- The loop over elements in memory is the loop of `expOr.Eval` over the trees they
stand for. -/
theorem orLoop_toExp {σ : Type} (ev : Node σ → Params → σ → Option (Option Bool × σ))
    (un : Node σ → Option (Exp σ)) (cs : List (Node σ))
    (hev : ∀ c ∈ cs, ∀ T, un c = some T → ∀ p s, ev c p s = some (T.Eval p s))
    (Ts : List (Exp σ)) (hTs : cs.mapM un = some Ts) (p : Params) (s : σ) :
    orLoop ev cs p s = some (expOr.Eval Ts p s) := by
  induction cs generalizing Ts s with
  | nil =>
    simp only [List.mapM_nil, Option.pure_def, Option.some.injEq] at hTs
    subst hTs
    simp [orLoop, expOr.Eval]
  | cons c rest ih =>
    simp only [List.mapM_cons, Option.pure_def, Option.bind_eq_bind, Option.bind_eq_some] at hTs
    obtain ⟨T, hT, Trest, hTrest, hcons⟩ := hTs
    simp only [Option.some.injEq] at hcons
    subst hcons
    have hc := hev c (List.mem_cons_self c rest) T hT p s
    have hrest := ih (fun x hx => hev x (List.mem_cons_of_mem c hx)) Trest hTrest
    simp only [orLoop, hc, expOr_Eval_cons]
    rcases hTe : T.Eval p s with ⟨r1, s1⟩
    rcases r1 with _ | b
    · rfl
    · cases b
      · exact hrest s1
      · rfl

/-- Agreement of the two levels: when a node in memory stands for the tree `T`, its `Eval`
in that memory returns, and returns what `T.Eval` returns. -/
theorem Node_Eval_toExp {σ : Type} (h : Heap σ) (depth : Nat) :
    ∀ (n : Node σ) (T : Exp σ), n.toExp h depth = some T →
      ∀ p s, n.Eval h depth p s = some (T.Eval p s) := by
  induction depth with
  | zero => intro n T hT; simp [Node.toExp] at hT
  | succ d ih =>
    intro n T hT p s
    cases n with
    | nil =>
      simp only [Node.toExp, Option.some.injEq] at hT
      subst hT
      simp [Node.Eval, Exp.Eval]
    | custom f =>
      simp only [Node.toExp, Option.some.injEq] at hT
      subst hT
      simp [Node.Eval, Exp.Eval]
    | expAnd t =>
      simp only [Node.toExp] at hT
      rcases hTs : List.mapM (Node.toExp h d) (t.elems h) with _ | Ts
      · rw [hTs] at hT
        exact absurd hT (by simp)
      · rw [hTs] at hT
        simp only [Option.map_some', Option.some.injEq] at hT
        subst hT
        simp only [Node.Eval, Exp.Eval]
        exact andLoop_toExp _ _ _ (fun c _ T hc => ih c T hc) Ts hTs p s
    | expOr t =>
      simp only [Node.toExp] at hT
      rcases hTs : List.mapM (Node.toExp h d) (t.elems h) with _ | Ts
      · rw [hTs] at hT
        exact absurd hT (by simp)
      · rw [hTs] at hT
        simp only [Option.map_some', Option.some.injEq] at hT
        subst hT
        simp only [Node.Eval, Exp.Eval]
        exact orLoop_toExp _ _ _ (fun c _ T hc => ih c T hc) Ts hTs p s
    | expNot e =>
      simp only [Node.toExp] at hT
      rcases hTe : Node.toExp h d e with _ | Te
      · rw [hTe] at hT
        exact absurd hT (by simp)
      · rw [hTe] at hT
        simp only [Option.map_some', Option.some.injEq] at hT
        subst hT
        simp only [Node.Eval, Exp.Eval, ih e Te hTe p s]
        rcases Te.Eval p s with ⟨r1, s1⟩
        rcases r1 with _ | b <;> rfl

/-- No assignment through a slice changes the number of children of a node. -/
theorem Node_children_assign_length {σ : Type} (h h1 : Heap σ) (u : Slice) (i : Nat)
    (x : Node σ) (ha : u.assign h i x = some h1) (n : Node σ) :
    (n.children h1).length = (n.children h).length := by
  cases n with
  | nil => rfl
  | custom f => rfl
  | expAnd t => exact Slice_elems_assign_length h h1 t u i x ha
  | expOr t => exact Slice_elems_assign_length h h1 t u i x ha
  | expNot e => rfl

/-! ## Concatenation of children -/

/-- The loop of `expAnd.Eval` over `xs ++ ys` runs over `xs` and, when that returns true,
continues over `ys` in the state reached. -/
theorem expAnd_Eval_append {σ : Type} (xs ys : List (Exp σ)) (p : Params) (s : σ) :
    expAnd.Eval (xs ++ ys) p s =
      match expAnd.Eval xs p s with
      | (some false, s1) => (some false, s1)
      | (some true, s1) => expAnd.Eval ys p s1
      | (none, s1) => (none, s1) := by
  induction xs generalizing s with
  | nil => simp [expAnd_Eval_nil]
  | cons x rest ih =>
    simp only [List.cons_append, expAnd_Eval_cons]
    rcases hx : x.Eval p s with ⟨r, s1⟩
    rcases r with _ | b
    · simp
    · cases b
      · simp
      · simp [ih]

/-- The loop of `expOr.Eval` over `xs ++ ys` runs over `xs` and, when that returns false,
continues over `ys` in the state reached. -/
theorem expOr_Eval_append {σ : Type} (xs ys : List (Exp σ)) (p : Params) (s : σ) :
    expOr.Eval (xs ++ ys) p s =
      match expOr.Eval xs p s with
      | (some true, s1) => (some true, s1)
      | (some false, s1) => expOr.Eval ys p s1
      | (none, s1) => (none, s1) := by
  induction xs generalizing s with
  | nil => simp [expOr_Eval_nil]
  | cons x rest ih =>
    simp only [List.cons_append, expOr_Eval_cons]
    rcases hx : x.Eval p s with ⟨r, s1⟩
    rcases r with _ | b
    · simp
    · cases b
      · simp [ih]
      · simp

/-- A boolean test holds for all elements of a list or of a permutation of it alike. -/
theorem all_eq_of_perm {α : Type} (f : α → Bool) (l1 l2 : List α) (hp : l1.Perm l2) :
    l1.all f = l2.all f := by
  rw [Bool.eq_iff_iff]
  simp only [List.all_eq_true]
  exact ⟨fun h x hx => h x (hp.mem_iff.mpr hx), fun h x hx => h x (hp.mem_iff.mp hx)⟩

/-- A boolean test holds for some element of a list or of a permutation of it alike. -/
theorem any_eq_of_perm {α : Type} (f : α → Bool) (l1 l2 : List α) (hp : l1.Perm l2) :
    l1.any f = l2.any f := by
  rw [Bool.eq_iff_iff]
  simp only [List.any_eq_true]
  exact ⟨fun ⟨x, hx, h⟩ => ⟨x, hp.mem_iff.mp hx, h⟩, fun ⟨x, hx, h⟩ => ⟨x, hp.mem_iff.mpr hx, h⟩⟩

/-! ## The claims -/

/-- C1. For every list `L` of children whose `Eval` is a pure boolean function of the
parameter source (child `e` returns `v e p` and leaves the state unchanged, for every `p`),
`And(L).Eval(p)` returns `all (v e p)`, also for the empty list; it is true if and only if
every child evaluates to true. -/
theorem And_Eval_eq_all {σ : Type} (L : List (Exp σ)) (v : Exp σ → Params → Bool)
    (h : ∀ e ∈ L, ∀ p s, e.Eval p s = (some (v e p), s)) (p : Params) (s : σ) :
    (And L).Eval p s = (some (L.all fun e => v e p), s) ∧
      (((And L).Eval p s).1 = some true ↔ ∀ e ∈ L, (e.Eval p s).1 = some true) := by
  have key : (And L).Eval p s = (some (L.all fun e => v e p), s) := by
    rw [Eval_And]
    exact expAnd_Eval_of_pure L p s (fun e => v e p) (fun e he => h e he p s)
  refine ⟨key, ?_⟩
  rw [key]
  simp only [Option.some.injEq, List.all_eq_true]
  constructor
  · intro hall e he
    rw [h e he p s]
    simp [hall e he]
  · intro hall e he
    have := hall e he
    rw [h e he p s] at this
    simpa using this

/-- Witness of C1: a conjunction of two leaves that compare a parameter with a constant. -/
theorem And_Eval_eq_all_witness :
    (And [Leaf fun p => p.Get "a" == "1", Leaf fun p => p.Get "b" == "2"]).Eval
        (Map.toParams [("a", "1"), ("b", "3")]) () = (some false, ()) := by
  have h := And_Eval_eq_all
    [Leaf fun p => p.Get "a" == "1", Leaf fun p => p.Get "b" == "2"]
    (fun e p => ((e.Eval p ()).1 == some true))
    (by
      intro e he p s
      simp only [List.mem_cons, List.mem_singleton, List.not_mem_nil, or_false] at he
      rcases he with rfl | rfl
      · cases hb : (p.Get "a" == "1") <;> simp [Leaf, Exp.Eval, hb]
      · cases hb : (p.Get "b" == "2") <;> simp [Leaf, Exp.Eval, hb])
    (Map.toParams [("a", "1"), ("b", "3")]) ()
  rw [h.1]
  decide

/-- C2. For every list `L` of children whose `Eval` is a pure boolean function of the
parameter source (child `e` returns `v e p` and leaves the state unchanged, for every `p`),
`Or(L).Eval(p)` returns `any (v e p)`, also for the empty list; it is true if and only if
at least one child evaluates to true. -/
theorem Or_Eval_eq_any {σ : Type} (L : List (Exp σ)) (v : Exp σ → Params → Bool)
    (h : ∀ e ∈ L, ∀ p s, e.Eval p s = (some (v e p), s)) (p : Params) (s : σ) :
    (Or L).Eval p s = (some (L.any fun e => v e p), s) ∧
      (((Or L).Eval p s).1 = some true ↔ ∃ e ∈ L, (e.Eval p s).1 = some true) := by
  have key : (Or L).Eval p s = (some (L.any fun e => v e p), s) := by
    rw [Eval_Or]
    exact expOr_Eval_of_pure L p s (fun e => v e p) (fun e he => h e he p s)
  refine ⟨key, ?_⟩
  rw [key]
  simp only [Option.some.injEq, List.any_eq_true]
  constructor
  · rintro ⟨e, he, hv⟩
    refine ⟨e, he, ?_⟩
    rw [h e he p s]
    simp [hv]
  · rintro ⟨e, he, hv⟩
    refine ⟨e, he, ?_⟩
    rw [h e he p s] at hv
    simpa using hv

/-- Witness of C2: a disjunction of two leaves that compare a parameter with a constant. -/
theorem Or_Eval_eq_any_witness :
    (Or [Leaf fun p => p.Get "role" == "admin", Leaf fun p => p.Get "role" == "owner"]).Eval
        (Map.toParams [("role", "owner")]) () = (some true, ()) := by
  have h := Or_Eval_eq_any
    [Leaf fun p => p.Get "role" == "admin", Leaf fun p => p.Get "role" == "owner"]
    (fun e p => ((e.Eval p ()).1 == some true))
    (by
      intro e he p s
      simp only [List.mem_cons, List.mem_singleton, List.not_mem_nil, or_false] at he
      rcases he with rfl | rfl
      · cases hb : (p.Get "role" == "admin") <;> simp [Leaf, Exp.Eval, hb]
      · cases hb : (p.Get "role" == "owner") <;> simp [Leaf, Exp.Eval, hb])
    (Map.toParams [("role", "owner")]) ()
  rw [h.1]
  decide

/-- C3. For every node `X`, parameter source `p` and state `s`, `Not(X).Eval(p)` evaluates
`X` and returns the negation of its result (a panic of `X` propagates), with the state `X`
left; it is true exactly when `X.Eval(p)` is false, and false exactly when it is true. -/
theorem Not_Eval_eq_not {σ : Type} (X : Exp σ) (p : Params) (s : σ) :
    ((Not X).Eval p s).1 = Option.map (fun b => !b) (X.Eval p s).1 ∧
      ((Not X).Eval p s).2 = (X.Eval p s).2 ∧
      (((Not X).Eval p s).1 = some true ↔ (X.Eval p s).1 = some false) ∧
      (((Not X).Eval p s).1 = some false ↔ (X.Eval p s).1 = some true) := by
  rw [Eval_Not]
  rcases X.Eval p s with ⟨r, s1⟩
  rcases r with _ | b
  · simp
  · cases b <;> simp

/-- C4. Zero-operand identities: for every parameter source `p`, `And()` evaluates to true
and `Or()` evaluates to false, and neither touches the state. -/
theorem And_Or_Eval_empty {σ : Type} (p : Params) (s : σ) :
    (And ([] : List (Exp σ))).Eval p s = (some true, s) ∧
      (Or ([] : List (Exp σ))).Eval p s = (some false, s) := by
  constructor
  · rw [Eval_And, expAnd_Eval_nil]
  · rw [Eval_Or, expOr_Eval_nil]

/-- C5. And short-circuits in construction order.  Let the children of `pre` return true
and record their evaluation (child `x` appends `t x` to the log).  Then `And(pre)` returns
true and the log receives the records of all children, in the order given, each once.  If
a child `c` that returns false follows, then `And(pre, c, post)` returns false and the log
receives exactly the records of `pre` and of `c`, in order, each once, whatever `post` is:
the children after the first false one are left unevaluated.  In particular
`And(False, RecordingTrue)` leaves the log as it was. -/
theorem And_Eval_short_circuit {τ : Type} (pre post : List (Exp (List τ))) (p : Params)
    (t : Exp (List τ) → List τ)
    (hpre : ∀ x ∈ pre, ∀ log, x.Eval p log = (some true, log ++ t x)) (log : List τ) :
    (And pre).Eval p log = (some true, log ++ pre.flatMap t) ∧
      (∀ c : Exp (List τ), (∀ l, c.Eval p l = (some false, l ++ t c)) →
        (And (pre ++ c :: post)).Eval p log = (some false, log ++ (pre ++ [c]).flatMap t)) ∧
      (∀ (tag : τ) (f : Params → Bool),
        (And [Leaf fun _ => false, Recording tag f]).Eval p log = (some false, log)) := by
  refine ⟨?_, ?_, ?_⟩
  · have h := expAnd_Eval_append_true pre [] p t hpre log
    rw [List.append_nil, expAnd_Eval_nil] at h
    rw [Eval_And, h]
  · intro c hc
    rw [Eval_And, expAnd_Eval_append_true pre (c :: post) p t hpre log, expAnd_Eval_cons, hc]
    simp [List.append_assoc]
  · intro tag f
    rw [Eval_And, expAnd_Eval_cons]
    simp [Leaf, Exp.Eval]

/-- Witness of C5: of three recording leaves with tags 1, 2, 3 returning true, false, true,
the conjunction evaluates the first two and leaves the third unevaluated. -/
theorem And_Eval_short_circuit_witness :
    (And [Recording 1 fun _ => true, Recording 2 fun _ => false,
        Recording 3 fun _ => true]).Eval (Map.toParams []) [0] = (some false, [0, 1, 2]) := by
  have h := (And_Eval_short_circuit [Recording 1 fun _ => true] [Recording 3 fun _ => true]
    (Map.toParams []) (fun e => (e.Eval (Map.toParams []) []).2)
    (by
      intro x hx l
      simp only [List.mem_singleton] at hx
      subst hx
      simp [Recording, Exp.Eval])
    [0]).2.1 (Recording 2 fun _ => false) (by intro l; simp [Recording, Exp.Eval])
  simpa [Recording, Exp.Eval] using h

/-- C6. Or short-circuits in construction order.  Let the children of `pre` return false
and record their evaluation (child `x` appends `t x` to the log).  Then `Or(pre)` returns
false and the log receives the records of all children, in the order given, each once.  If
a child `c` that returns true follows, then `Or(pre, c, post)` returns true and the log
receives exactly the records of `pre` and of `c`, in order, each once, whatever `post` is:
the children after the first true one are left unevaluated.  In particular
`Or(True, RecordingFalse)` leaves the log as it was. -/
theorem Or_Eval_short_circuit {τ : Type} (pre post : List (Exp (List τ))) (p : Params)
    (t : Exp (List τ) → List τ)
    (hpre : ∀ x ∈ pre, ∀ log, x.Eval p log = (some false, log ++ t x)) (log : List τ) :
    (Or pre).Eval p log = (some false, log ++ pre.flatMap t) ∧
      (∀ c : Exp (List τ), (∀ l, c.Eval p l = (some true, l ++ t c)) →
        (Or (pre ++ c :: post)).Eval p log = (some true, log ++ (pre ++ [c]).flatMap t)) ∧
      (∀ (tag : τ) (f : Params → Bool),
        (Or [Leaf fun _ => true, Recording tag f]).Eval p log = (some true, log)) := by
  refine ⟨?_, ?_, ?_⟩
  · have h := expOr_Eval_append_false pre [] p t hpre log
    rw [List.append_nil, expOr_Eval_nil] at h
    rw [Eval_Or, h]
  · intro c hc
    rw [Eval_Or, expOr_Eval_append_false pre (c :: post) p t hpre log, expOr_Eval_cons, hc]
    simp [List.append_assoc]
  · intro tag f
    rw [Eval_Or, expOr_Eval_cons]
    simp [Leaf, Exp.Eval]

/-- Witness of C6: of three recording leaves with tags 1, 2, 3 returning false, true, false,
the disjunction evaluates the first two and leaves the third unevaluated. -/
theorem Or_Eval_short_circuit_witness :
    (Or [Recording 1 fun _ => false, Recording 2 fun _ => true,
        Recording 3 fun _ => false]).Eval (Map.toParams []) [0] = (some true, [0, 1, 2]) := by
  have h := (Or_Eval_short_circuit [Recording 1 fun _ => false] [Recording 3 fun _ => false]
    (Map.toParams []) (fun e => (e.Eval (Map.toParams []) []).2)
    (by
      intro x hx l
      simp only [List.mem_singleton] at hx
      subst hx
      simp [Recording, Exp.Eval])
    [0]).2.1 (Recording 2 fun _ => true) (by intro l; simp [Recording, Exp.Eval])
  simpa [Recording, Exp.Eval] using h

/-- C7. For every map `m` (a Go map: its keys are distinct) and every key `k`, `m.Get(k)`
returns the value stored under `k` when `k` is present and the empty string when `k` is
absent; the empty map returns the empty string for every key.  `Get` is a total function:
it never fails.  `Map{"a":"1"}.Get("a") == "1"` and `Map{"a":"1"}.Get("missing") == ""`. -/
theorem Map_Get_present_absent (m : Map) (hm : m.WF) (k : String) :
    (∀ v, (k, v) ∈ m → m.Get k = v) ∧
      ((∀ v, (k, v) ∉ m) → m.Get k = "") ∧
      Map.Get [] k = "" ∧
      Map.Get [("a", "1")] "a" = "1" ∧
      Map.Get [("a", "1")] "missing" = "" := by
  refine ⟨?_, ?_, ?_, ?_, ?_⟩
  · intro v hv
    simp [Map.Get, Map.index, lookup_of_mem m hm k v hv]
  · intro hk
    simp [Map.Get, Map.index, lookup_of_not_mem m k hk]
  · simp [Map.Get, Map.index]
  · decide
  · decide

/-- Witness of C7: a map with two entries, asked for a stored key and for an absent one. -/
theorem Map_Get_present_absent_witness :
    Map.WF [("role", "admin"), ("suspended", "false")] ∧
      Map.Get [("role", "admin"), ("suspended", "false")] "suspended" = "false" ∧
      Map.Get [("role", "admin"), ("suspended", "false")] "age" = "" :=
  ⟨by decide,
    (Map_Get_present_absent [("role", "admin"), ("suspended", "false")] (by decide)
      "suspended").1 "false" (by decide),
    (Map_Get_present_absent [("role", "admin"), ("suspended", "false")] (by decide)
      "age").2.1 (by intro v; simp)⟩

/-- C8. Double negation: for every node `X`, parameter source `p` and state `s`,
`Not(Not(X)).Eval(p)` returns what `X.Eval(p)` returns, with the same effect. -/
theorem Not_Not_Eval {σ : Type} (X : Exp σ) (p : Params) (s : σ) :
    (Not (Not X)).Eval p s = X.Eval p s := by
  rw [Eval_Not, Eval_Not]
  rcases X.Eval p s with ⟨r, s1⟩
  rcases r with _ | b
  · simp
  · simp

/-- C9. De Morgan for And: for every list of nodes `L` (the empty list included), parameter
source `p` and state `s`, `Not(And(L1..Ln)).Eval(p)` and `Or(Not(L1),..,Not(Ln)).Eval(p)`
return the same result with the same effect; in particular for pure nodes. -/
theorem Not_And_Eval_eq_Or_Not {σ : Type} (L : List (Exp σ)) (p : Params) (s : σ) :
    (Not (And L)).Eval p s = (Or (L.map Not)).Eval p s := by
  rw [Eval_Or, expOr_Eval_map_Not]

/-- C10. De Morgan for Or: for every list of nodes `L` (the empty list included), parameter
source `p` and state `s`, `Not(Or(L1..Ln)).Eval(p)` and `And(Not(L1),..,Not(Ln)).Eval(p)`
return the same result with the same effect; in particular for pure nodes. -/
theorem Not_Or_Eval_eq_And_Not {σ : Type} (L : List (Exp σ)) (p : Params) (s : σ) :
    (Not (Or L)).Eval p s = (And (L.map Not)).Eval p s := by
  rw [Eval_And, expAnd_Eval_map_Not]

/-- C11. End-to-end scenario.  With `LeafEquals(k, v).Eval(p)` defined as `p.Get(k) == v`,
the tree `And(Or(LeafEquals("role","admin"), LeafEquals("role","owner")),
Not(LeafEquals("suspended","true")))` evaluates, for every parameter source `p`, to true
exactly when `p.Get("role")` is "admin" or "owner" and `p.Get("suspended")` is not "true".
It is true for `Map{"role":"admin","suspended":"false"}`, false for
`Map{"role":"guest","suspended":"false"}` and false for
`Map{"role":"admin","suspended":"true"}`. -/
theorem scenario_Eval {σ : Type} (p : Params) (s : σ) :
    (And [Or [LeafEquals "role" "admin", LeafEquals "role" "owner"],
        Not (LeafEquals "suspended" "true")]).Eval p s =
      (some ((p.Get "role" == "admin" || p.Get "role" == "owner") &&
        !(p.Get "suspended" == "true")), s) ∧
    (((And [Or [LeafEquals "role" "admin", LeafEquals "role" "owner"],
        Not (LeafEquals "suspended" "true")]).Eval p s).1 = some true ↔
      (p.Get "role" = "admin" ∨ p.Get "role" = "owner") ∧ p.Get "suspended" ≠ "true") ∧
    (And [Or [LeafEquals "role" "admin", LeafEquals "role" "owner"],
        Not (LeafEquals "suspended" "true")]).Eval
      (Map.toParams [("role", "admin"), ("suspended", "false")]) s = (some true, s) ∧
    (And [Or [LeafEquals "role" "admin", LeafEquals "role" "owner"],
        Not (LeafEquals "suspended" "true")]).Eval
      (Map.toParams [("role", "guest"), ("suspended", "false")]) s = (some false, s) ∧
    (And [Or [LeafEquals "role" "admin", LeafEquals "role" "owner"],
        Not (LeafEquals "suspended" "true")]).Eval
      (Map.toParams [("role", "admin"), ("suspended", "true")]) s = (some false, s) := by
  have key : ∀ q : Params,
      (And [Or [LeafEquals "role" "admin", LeafEquals "role" "owner"],
        Not (LeafEquals "suspended" "true")]).Eval q s =
      (some ((q.Get "role" == "admin" || q.Get "role" == "owner") &&
        !(q.Get "suspended" == "true")), s) := by
    intro q
    simp only [Eval_And, expAnd_Eval_cons, Eval_Or, expOr_Eval_cons, Eval_Not, LeafEquals,
      Leaf, Exp.Eval, expAnd_Eval_nil, expOr_Eval_nil]
    cases h1 : (q.Get "role" == "admin") <;> cases h2 : (q.Get "role" == "owner") <;>
      cases h3 : (q.Get "suspended" == "true") <;> simp
  refine ⟨key p, ?_, ?_, ?_, ?_⟩
  · rw [key p]
    simp
  · rw [key]
    simp only [Prod.mk.injEq, Option.some.injEq, and_true]
    decide
  · rw [key]
    simp only [Prod.mk.injEq, Option.some.injEq, and_true]
    decide
  · rw [key]
    simp only [Prod.mk.injEq, Option.some.injEq, and_true]
    decide

/-- C12. Totality.  For every tree built from `And`, `Or` and `Not` with no nil children
and whose user-defined leaves return a boolean, for every parameter source `p` and state
`s`, `Eval(p)` returns a boolean: the combinators add no failure of their own.  (`Eval` is a
total function on trees, so the evaluation of a finite tree terminates.) -/
theorem Eval_total {σ : Type} (X : Exp σ) (hX : X.WellFormed) (p : Params) (s : σ) :
    ∃ (b : Bool) (s1 : σ), X.Eval p s = (some b, s1) :=
  Eval_of_WellFormed X hX p s

/-- Witness of C12: a tree with all three combinators, an empty `And` and recording
leaves is well-formed and returns a boolean. -/
theorem Eval_total_witness :
    (And [Or [Recording 1 fun _ => false, And []],
        Not (Recording 2 fun p => p.Get "a" == "1")]).WellFormed ∧
      ∃ (b : Bool) (s1 : List Nat),
        (And [Or [Recording 1 fun _ => false, And []],
          Not (Recording 2 fun p => p.Get "a" == "1")]).Eval (Map.toParams [("a", "1")]) [] =
          (some b, s1) :=
  ⟨by simp [And, Or, Not, Recording, Exp.WellFormed, WellFormedList],
    Eval_total _ (by simp [And, Or, Not, Recording, Exp.WellFormed, WellFormedList]) _ _⟩

/-- C13. Purity and determinism.  Let `X` be a tree built from `And`, `Or` and `Not` over
leaves that observe the parameter source only through `Get` and keep no state.  For every
two parameter sources `p` and `q` with `p.Get(k) == q.Get(k)` for every key `k`, `X.Eval(p)`
and `X.Eval(q)` return the same boolean, in whatever states they are evaluated.  `Eval`
returns a boolean and leaves the state as it found it (no node stores evaluation state),
so evaluating `X` against `p` again, after any number of evaluations, returns the same
result. -/
theorem Eval_deterministic {σ : Type} (X : Exp σ) (hX : X.Stateless) (p q : Params)
    (hpq : ∀ k, p.Get k = q.Get k) (s s2 : σ) :
    (X.Eval p s).1 = (X.Eval q s2).1 ∧
      (∃ b : Bool, (X.Eval p s).1 = some b) ∧
      (X.Eval p s).2 = s ∧
      ∀ n : Nat, X.Eval p ((fun st => (X.Eval p st).2)^[n] s) = X.Eval p s := by
  obtain ⟨g, hg⟩ := Eval_of_Stateless X hX
  have hGet : p.Get = q.Get := funext hpq
  refine ⟨?_, ⟨g p.Get, ?_⟩, ?_, ?_⟩
  · rw [hg p s, hg q s2, hGet]
  · rw [hg p s]
  · rw [hg p s]
  · intro n
    have hid : (fun st => (X.Eval p st).2) = id := by
      funext st
      rw [hg p st]
      rfl
    rw [hid, Function.iterate_id]
    rfl

/-- Witness of C13: a tree with all three combinators evaluated against a map and against
the same map with an entry that no leaf can tell from absence. -/
theorem Eval_deterministic_witness :
    ((And [Or [Leaf fun p => p.Get "role" == "admin", Leaf fun p => p.Get "role" == "owner"],
        Not (Leaf fun p => p.Get "suspended" == "true")]).Eval
        (Map.toParams [("role", "admin")]) ()).1 =
      ((And [Or [Leaf fun p => p.Get "role" == "admin", Leaf fun p => p.Get "role" == "owner"],
        Not (Leaf fun p => p.Get "suspended" == "true")]).Eval
        (Map.toParams [("suspended", ""), ("role", "admin")]) ()).1 :=
  (Eval_deterministic
    (And [Or [Leaf fun p => p.Get "role" == "admin", Leaf fun p => p.Get "role" == "owner"],
      Not (Leaf fun p => p.Get "suspended" == "true")])
    (by
      simp only [And, Or, Not, Leaf, Exp.Stateless, StatelessList, and_true]
      exact ⟨⟨⟨fun G => G "role" == "admin", fun _ _ => rfl⟩,
        ⟨fun G => G "role" == "owner", fun _ _ => rfl⟩⟩,
        ⟨fun G => G "suspended" == "true", fun _ _ => rfl⟩⟩)
    (Map.toParams [("role", "admin")]) (Map.toParams [("suspended", ""), ("role", "admin")])
    (fun k => (Map_set_empty_Get [("role", "admin")] "suspended" (by intro v; simp) k).symm)
    () ()).1

/-- C14. Absent and empty are indistinguishable.  For every map `m` and every key `k` not
present in `m`, the map `m` and the map `m` with `k` set to the empty string return the same
`Get` result for every key; therefore every tree built from `And`, `Or`, `Not` and leaves
that observe the parameter source only through `Get` (a leaf of the model is given nothing
but the lookup; it may keep state) evaluates to the same result against both maps. -/
theorem Map_absent_empty (m : Map) (k : String) (hk : ∀ v, (k, v) ∉ m) :
    (∀ key, (m.set k "").Get key = m.Get key) ∧
      ∀ (σ : Type) (X : Exp σ) (s : σ),
        X.Eval (Map.toParams (m.set k "")) s = X.Eval (Map.toParams m) s := by
  have hGet : ∀ key, (m.set k "").Get key = m.Get key := Map_set_empty_Get m k hk
  refine ⟨hGet, ?_⟩
  intro σ X s
  have hp : Map.toParams (m.set k "") = Map.toParams m := by
    simp only [Map.toParams]
    congr 1
    exact funext hGet
  rw [hp]

/-- Witness of C14: a map without the key "suspended", and a leaf that tests that key
against the empty string. -/
theorem Map_absent_empty_witness :
    (Map.set [("role", "admin")] "suspended" "").Get "suspended" =
        Map.Get [("role", "admin")] "suspended" ∧
      (Leaf fun p => p.Get "suspended" == "").Eval
          (Map.toParams (Map.set [("role", "admin")] "suspended" "")) () =
        (Leaf fun p => p.Get "suspended" == "").Eval (Map.toParams [("role", "admin")]) () :=
  ⟨(Map_absent_empty [("role", "admin")] "suspended" (by intro v; simp)).1 "suspended",
    (Map_absent_empty [("role", "admin")] "suspended" (by intro v; simp)).2 Unit
      (Leaf fun p => p.Get "suspended" == "") ()⟩

/-- C15, as stated, fails: `And(s...)` and `Or(s...)` keep the slice `s` itself.  With
`s` a slice over one leaf that returns true, `n := And(s...)` evaluates to true; after the
caller assigns a leaf that returns false to `s[0]`, the same `n` evaluates to false.
Likewise `Or(s...)` over a false leaf turns from false to true.  The same happens below
the root: with `inner := Or(s...)` and `n := And(inner)`, whose own array is new, `n`
evaluates to true before and to false after the assignment to `s[0]`. -/
theorem slice_shared_counterexample :
    (AndSlice ⟨0, 0, 1⟩).Eval [[Node.Leaf fun _ => true]] 2 (Map.toParams []) () =
        some (some true, ()) ∧
      Option.map (fun h1 => (AndSlice ⟨0, 0, 1⟩).Eval h1 2 (Map.toParams []) ())
        (Slice.assign [[Node.Leaf fun _ => true]] ⟨0, 0, 1⟩ 0 (Node.Leaf fun _ => false)) =
        some (some (some false, ())) ∧
      (OrSlice ⟨0, 0, 1⟩).Eval [[Node.Leaf fun _ => false]] 2 (Map.toParams []) () =
        some (some false, ()) ∧
      Option.map (fun h1 => (OrSlice ⟨0, 0, 1⟩).Eval h1 2 (Map.toParams []) ())
        (Slice.assign [[Node.Leaf fun _ => false]] ⟨0, 0, 1⟩ 0 (Node.Leaf fun _ => true)) =
        some (some (some true, ())) ∧
      (AndArgs [[Node.Leaf fun _ => true]] [OrSlice ⟨0, 0, 1⟩]).2.Eval
          (AndArgs [[Node.Leaf fun _ => true]] [OrSlice ⟨0, 0, 1⟩]).1 3 (Map.toParams []) () =
        some (some true, ()) ∧
      Option.map
        (fun h1 => (AndArgs [[Node.Leaf fun _ => true]] [OrSlice ⟨0, 0, 1⟩]).2.Eval h1 3
          (Map.toParams []) ())
        (Slice.assign (AndArgs [[Node.Leaf fun _ => true]] [OrSlice ⟨0, 0, 1⟩]).1 ⟨0, 0, 1⟩ 0
          (Node.Leaf fun _ => false)) =
        some (some (some false, ())) := by
  refine ⟨?_, ?_, ?_, ?_, ?_, ?_⟩ <;> decide

/-- C15, amended.  A node holds the slice it was given, without a copy, and so does every
`And` or `Or` node below it.  Let the caller assign `u[i] = x` after the nodes are
constructed.  The number of children of a node never changes.  When `u` is the slice that
was passed as `And(u...)` or `Or(u...)`, the assignment replaces the `i`-th child of that
node, and its `Eval(p)` is from then on the loop over the updated sequence.  The evaluation
of a node `n` is unchanged, at every bound on the depth of the calls, when the backing array
of `u` is not reached from `n`: it is neither the array of the slice of `n` nor that of the
slice of a node below `n`.  A call `And(c1, .., cn)` or `Or(c1, .., cn)` with individual
arguments puts the children in a new array, which an assignment through a slice the caller
had before does not change.  User-defined leaves are functions of the parameter source and
of their own state; they do not read the memory of slices. -/
theorem Node_after_assign {σ : Type} (h h1 : Heap σ) (u : Slice) (i : Nat) (x : Node σ)
    (ha : u.assign h i x = some h1) :
    (∀ n : Node σ, (n.children h1).length = (n.children h).length) ∧
      (u.Valid h →
        (AndSlice u : Node σ).children h1 = ((AndSlice u : Node σ).children h).set i x ∧
        (OrSlice u : Node σ).children h1 = ((OrSlice u : Node σ).children h).set i x ∧
        ∀ depth p s,
          (AndSlice u).Eval h1 (depth + 1) p s =
            andLoop (Node.Eval h1 depth) (((AndSlice u : Node σ).children h).set i x) p s ∧
          (OrSlice u).Eval h1 (depth + 1) p s =
            orLoop (Node.Eval h1 depth) (((OrSlice u : Node σ).children h).set i x) p s) ∧
      (∀ n : Node σ, ¬ Reaches h n u.arr →
        ∀ depth p s, n.Eval h1 depth p s = n.Eval h depth p s) ∧
      (∀ cs : List (Node σ),
        (AndArgs h cs).2.children (AndArgs h cs).1 = cs ∧
        (OrArgs h cs).2.children (OrArgs h cs).1 = cs ∧
        (u.arr < h.length → ∀ h2, u.assign (AndArgs h cs).1 i x = some h2 →
          (AndArgs h cs).2.children h2 = cs ∧ (OrArgs h cs).2.children h2 = cs)) := by
  have hfresh : ∀ cs : List (Node σ),
      Slice.elems (h ++ [cs]) ⟨h.length, 0, cs.length⟩ = cs := by
    intro cs
    simp [Slice.elems, List.getD_eq_getElem?_getD]
  refine ⟨?_, ?_, ?_, ?_⟩
  · exact Node_children_assign_length h h1 u i x ha
  · intro hu
    have hc : u.elems h1 = (u.elems h).set i x := Slice_elems_assign_self h h1 u i x hu ha
    refine ⟨hc, hc, fun depth p s => ?_⟩
    simp only [AndSlice, OrSlice, Node.Eval, Node.children, hc, and_self]
  · intro n hn depth p s
    exact Node_Eval_assign_frame h h1 u i x ha depth n hn p s
  · intro cs
    refine ⟨hfresh cs, hfresh cs, ?_⟩
    intro hlt h2 ha2
    have hne : u.arr ≠ (⟨h.length, 0, cs.length⟩ : Slice).arr := Nat.ne_of_lt hlt
    have hc : Slice.elems h2 ⟨h.length, 0, cs.length⟩ = cs :=
      (Slice_elems_assign_other (h ++ [cs]) h2 ⟨h.length, 0, cs.length⟩ u i x hne ha2).trans
        (hfresh cs)
    exact ⟨hc, hc⟩

/-- Witness of C15, amended: memory with two arrays.  The caller replaces the second
element of the first array by a false leaf: the conjunction over that array then evaluates
to false, and the conjunction over the other array, which does not reach the first,
evaluates as before. -/
theorem Node_after_assign_witness :
    (AndSlice ⟨0, 0, 2⟩).Eval
        [[Node.Leaf fun _ => true, Node.Leaf fun _ => false], [Node.Leaf fun _ => true]] 2
        (Map.toParams []) () = some (some false, ()) ∧
      (AndSlice ⟨1, 0, 1⟩).Eval
        [[Node.Leaf fun _ => true, Node.Leaf fun _ => false], [Node.Leaf fun _ => true]] 2
        (Map.toParams []) () = some (some true, ()) := by
  have hw := Node_after_assign
    ([[Node.Leaf fun _ => true, Node.Leaf fun _ => true], [Node.Leaf fun _ => true]] :
      Heap Unit)
    [[Node.Leaf fun _ => true, Node.Leaf fun _ => false], [Node.Leaf fun _ => true]]
    ⟨0, 0, 2⟩ 1 (Node.Leaf fun _ => false) (by simp [Slice.assign])
  refine ⟨?_, ?_⟩
  · rw [((hw.2.1 (by simp [Slice.Valid])).2.2 1 (Map.toParams []) ()).1]
    decide
  · rw [hw.2.2.1 (AndSlice ⟨1, 0, 1⟩) (by
      intro hr
      cases hr with
      | andSelf t a he => simp at he
      | andElem t c a hc hr2 =>
        simp only [Slice.elems, List.getD_eq_getElem?_getD] at hc
        simp at hc
        subst hc
        cases hr2) 2 (Map.toParams []) ()]
    decide

/-- C16. Not never short-circuits.  For every child `X`, parameter source `p` and log,
the effect of `Not(X).Eval(p)` is the effect of one evaluation of `X` with `p`.  A leaf that
records what it observes of the parameter source it is given is evaluated exactly once and
is given `p` itself: one record, the observation of `p`, is added to the log.  A leaf that
records a tag at each evaluation adds its tag exactly once. -/
theorem Not_Eval_once {τ : Type} (p : Params) (log : List τ) :
    (∀ X : Exp (List τ), ((Not X).Eval p log).2 = (X.Eval p log).2) ∧
      (∀ (obs : Params → τ) (f : Params → Bool),
        (Not (Observing obs f)).Eval p log = (some (!f p), log ++ [obs p])) ∧
      (∀ (tag : τ) (f : Params → Bool),
        (Not (Recording tag f)).Eval p log = (some (!f p), log ++ [tag])) ∧
      (∀ (tag : τ) (f : Params → Bool) [DecidableEq τ],
        ((Not (Recording tag f)).Eval p log).2.count tag = log.count tag + 1) := by
  refine ⟨?_, ?_, ?_, ?_⟩
  · intro X
    rw [Eval_Not]
    rcases X.Eval p log with ⟨r, s1⟩
    rcases r with _ | b <;> rfl
  · intro obs f
    simp [Eval_Not, Observing, Exp.Eval]
  · intro tag f
    simp [Eval_Not, Recording, Exp.Eval]
  · intro tag f _
    simp [Eval_Not, Recording, Exp.Eval]

/-- C17. Flattening.  For all lists of nodes `xs` and `ys`, every parameter source `p` and
every state, `And(And(xs...), And(ys...)).Eval(p)` and `And(xs ++ ys).Eval(p)` return the
same result and leave the same state, and so do `Or(Or(xs...), Or(ys...)).Eval(p)` and
`Or(xs ++ ys).Eval(p)`.  The nodes are arbitrary (their leaves may record their evaluation
in the state), so the nested and the flat form evaluate the same children in the same
order: nesting does not change the short-circuit behaviour. -/
theorem And_Or_Eval_flatten {σ : Type} (xs ys : List (Exp σ)) (p : Params) (s : σ) :
    (And [And xs, And ys]).Eval p s = (And (xs ++ ys)).Eval p s ∧
      (Or [Or xs, Or ys]).Eval p s = (Or (xs ++ ys)).Eval p s := by
  constructor
  · simp only [Eval_And, expAnd_Eval_cons, expAnd_Eval_nil, expAnd_Eval_append]
    rcases hx : expAnd.Eval xs p s with ⟨r, s1⟩
    rcases r with _ | b
    · simp
    · cases b
      · simp
      · simp only
        rcases hy : expAnd.Eval ys p s1 with ⟨r2, s2⟩
        rcases r2 with _ | b2
        · simp
        · cases b2 <;> simp
  · simp only [Eval_Or, expOr_Eval_cons, expOr_Eval_nil, expOr_Eval_append]
    rcases hx : expOr.Eval xs p s with ⟨r, s1⟩
    rcases r with _ | b
    · simp
    · cases b
      · simp only
        rcases hy : expOr.Eval ys p s1 with ⟨r2, s2⟩
        rcases r2 with _ | b2
        · simp
        · cases b2 <;> simp
      · simp

/-- C18. Order independence of the result.  For every list `L` of pure nodes (child `e`
returns `v e p` and leaves the state unchanged), every permutation `L2` of `L` and every
parameter source `p`, `And(L2).Eval(p)` equals `And(L).Eval(p)` and `Or(L2).Eval(p)` equals
`Or(L).Eval(p)`. -/
theorem And_Or_Eval_perm {σ : Type} (L L2 : List (Exp σ)) (v : Exp σ → Params → Bool)
    (h : ∀ e ∈ L, ∀ p s, e.Eval p s = (some (v e p), s)) (hperm : L2.Perm L)
    (p : Params) (s : σ) :
    (And L2).Eval p s = (And L).Eval p s ∧ (Or L2).Eval p s = (Or L).Eval p s := by
  have h2 : ∀ e ∈ L2, e.Eval p s = (some (v e p), s) :=
    fun e he => h e (hperm.mem_iff.mp he) p s
  have h1 : ∀ e ∈ L, e.Eval p s = (some (v e p), s) := fun e he => h e he p s
  constructor
  · rw [Eval_And, Eval_And, expAnd_Eval_of_pure L2 p s (fun e => v e p) h2,
      expAnd_Eval_of_pure L p s (fun e => v e p) h1,
      all_eq_of_perm (fun e => v e p) L2 L hperm]
  · rw [Eval_Or, Eval_Or, expOr_Eval_of_pure L2 p s (fun e => v e p) h2,
      expOr_Eval_of_pure L p s (fun e => v e p) h1,
      any_eq_of_perm (fun e => v e p) L2 L hperm]

/-- Witness of C18: two leaves in both orders; the conjunction is false and the
disjunction is true either way. -/
theorem And_Or_Eval_perm_witness :
    (And [Leaf fun p => p.Get "b" == "2", Leaf fun p => p.Get "a" == "1"]).Eval
        (Map.toParams [("a", "1")]) () =
      (And [Leaf fun p => p.Get "a" == "1", Leaf fun p => p.Get "b" == "2"]).Eval
        (Map.toParams [("a", "1")]) () ∧
    (Or [Leaf fun p => p.Get "b" == "2", Leaf fun p => p.Get "a" == "1"]).Eval
        (Map.toParams [("a", "1")]) () =
      (Or [Leaf fun p => p.Get "a" == "1", Leaf fun p => p.Get "b" == "2"]).Eval
        (Map.toParams [("a", "1")]) () :=
  And_Or_Eval_perm
    [Leaf fun p => p.Get "a" == "1", Leaf fun p => p.Get "b" == "2"]
    [Leaf fun p => p.Get "b" == "2", Leaf fun p => p.Get "a" == "1"]
    (fun e p => ((e.Eval p ()).1 == some true))
    (by
      intro e he p s
      simp only [List.mem_cons, List.mem_singleton, List.not_mem_nil, or_false] at he
      rcases he with rfl | rfl
      · cases hb : (p.Get "a" == "1") <;> simp [Leaf, Exp.Eval, hb]
      · cases hb : (p.Get "b" == "2") <;> simp [Leaf, Exp.Eval, hb])
    (List.Perm.swap _ _ [])
    (Map.toParams [("a", "1")]) ()

/-- C19. Nil children.  The constructors store a nil child as they store any other (they
validate nothing), and `Eval` fails exactly when the evaluation reaches it:
`Not(nil).Eval(p)`, `And(nil).Eval(p)` and `Or(nil).Eval(p)` panic for every parameter
source `p`, whereas a nil entry after the short-circuit point is never touched:
`And(F, nil).Eval(p)` returns false and `Or(T, nil).Eval(p)` returns true, for leaves `F`
and `T` that always return false and true. -/
theorem Eval_nil_child {σ : Type} (p : Params) (s : σ) :
    (Not (Exp.nil : Exp σ) = Exp.expNot Exp.nil ∧
      And [(Exp.nil : Exp σ)] = Exp.expAnd [Exp.nil] ∧
      Or [(Exp.nil : Exp σ)] = Exp.expOr [Exp.nil]) ∧
    (Not (Exp.nil : Exp σ)).Eval p s = (none, s) ∧
    (And [(Exp.nil : Exp σ)]).Eval p s = (none, s) ∧
    (Or [(Exp.nil : Exp σ)]).Eval p s = (none, s) ∧
    (And [Leaf (fun _ => false), (Exp.nil : Exp σ)]).Eval p s = (some false, s) ∧
    (Or [Leaf (fun _ => true), (Exp.nil : Exp σ)]).Eval p s = (some true, s) := by
  refine ⟨⟨rfl, rfl, rfl⟩, ?_, ?_, ?_, ?_, ?_⟩
  · simp [Eval_Not, Exp.Eval]
  · simp [Eval_And, expAnd_Eval_cons, Exp.Eval]
  · simp [Eval_Or, expOr_Eval_cons, Exp.Eval]
  · simp [Eval_And, expAnd_Eval_cons, Leaf, Exp.Eval]
  · simp [Eval_Or, expOr_Eval_cons, Leaf, Exp.Eval]

end exp
